import Mathlib

/-!
# Verification of the MangaWebTranslator text-region detection engine

Shallow embedding of the detection pipeline of the MangaTranslator repository:

* `MangaWebTranslator/services/ocr/ocr_preprocess.py` (`preprocess_for_ocr`),
* `MangaWebTranslator/services/ocr/engines/comic_text_detector_adapter.py`
  (`ComicTextDetectorAdapter.detect_regions`),
* `MangaWebTranslator/services/ocr/region_ocr_pipeline.py`
  (`suppress_nested_boxes`, `pad_crop`, `detect_text_regions`).

Python `int` is modeled as `ℤ` (candidate coordinates produced by the code are
non-negative, but the dataclass fields are plain ints), Python `float`
arithmetic on the subsume ratios and pad fractions is modeled exactly over `ℚ`,
Python `str` values are modeled as their lists of characters, and raster
images are modeled as a width, a height and a total pixel function.  Calls that
raise are modeled with `Except`.  The OpenCV / PIL primitives the code invokes
(`cv2.threshold`, `cv2.GaussianBlur`, `cv2.dilate`,
`cv2.findContours`/`cv2.boundingRect`, `PIL.Image.crop`) are external library
code; they are modeled here from their documented semantics, as noted on each
definition.
-/

/-- The `TextRegion` dataclass of `comic_text_detector_adapter.py` (lines
20–27).  Only the geometry fields are modeled: the optional `polygon` and
`score` fields default to `None` and are never set by any code path considered
here.  The same structure also stands for the plain `(x, y, w, h)` tuples used
by `ocr_preprocess.py`, which carry the same four integers. -/
structure TextRegion where
  left : ℤ
  top : ℤ
  width : ℤ
  height : ℤ
deriving DecidableEq

/-- The function `_inter_area` of `region_ocr_pipeline.py` (lines 15–22).  The nested
`intersection_area` helpers of `ocr_preprocess.py` (lines 131–141, 186–196)
and of `comic_text_detector_adapter.py` (lines 64–73) compute the identical
formula on `(x, y, w, h)` tuples, so this single definition stands for all of
them. -/
def inter_area (a b : TextRegion) : ℤ :=
  let ix1 := max a.left b.left
  let iy1 := max a.top b.top
  let ix2 := min (a.left + a.width) (b.left + b.width)
  let iy2 := min (a.top + a.height) (b.top + b.height)
  if ix2 ≤ ix1 ∨ iy2 ≤ iy1 then 0 else (ix2 - ix1) * (iy2 - iy1)

/-- The function `suppress_nested_boxes` of `region_ocr_pipeline.py` (lines 25–45).
For each indexed region `small` with positive area (`sa <= 0` regions are
skipped, i.e. dropped), it is kept exactly when no region at a *different
index* has strictly larger area and covers at least the fraction
`subsume_ratio` of `small`'s area.  The Python default for `subsume_ratio`
is `0.8`; the one caller passes `0.8` explicitly.  Python's float division
`ia / sa` is modeled exactly over `ℚ`. -/
def suppress_nested_boxes (regions : List TextRegion) (subsume_ratio : ℚ) :
    List TextRegion :=
  ((regions.enum.filter fun p =>
      decide (0 < p.2.width * p.2.height) &&
      !(regions.enum.any fun q =>
          decide (q.1 ≠ p.1) &&
          decide (p.2.width * p.2.height < q.2.width * q.2.height) &&
          decide (((inter_area p.2 q.2 : ℤ) : ℚ) /
              ((p.2.width * p.2.height : ℤ) : ℚ) ≥ subsume_ratio))).map
    Prod.snd)

/-- The final subsumption loop of `preprocess_for_ocr`
(`ocr_preprocess.py` lines 173–205).  Unlike `suppress_nested_boxes` there is
no `sa <= 0` skip: for a zero-area rect the conjunct `small_area > 0` keeps
`contained` false, so the rect is kept.  The ratio is the hard-coded
`subsume_ratio = 0.8` of line 199. -/
def final_rects_of (flat_rects : List TextRegion) : List TextRegion :=
  ((flat_rects.enum.filter fun p =>
      !(flat_rects.enum.any fun q =>
          decide (q.1 ≠ p.1) &&
          decide (p.2.width * p.2.height < q.2.width * q.2.height) &&
          (decide (0 < p.2.width * p.2.height) &&
           decide (((inter_area p.2 q.2 : ℤ) : ℚ) /
               ((p.2.width * p.2.height : ℤ) : ℚ) ≥ (4 : ℚ) / 5)))).map
    Prod.snd)

/-- The name tag `"10_fixed"` tested by the width-cap branch of the size
filter (`ocr_preprocess.py` line 149); `name_prefix.startswith("10_fixed")`
holds exactly for the inverse-mask pass, whose label is
`f"10_fixed{inverse_threshold}_inv"`. -/
def inv_mask_tag : List Char := "10_fixed".data

/-- The label passed for the direct-mask pass, `f"09_fixed{fixed_threshold}"`
with `fixed_threshold = 240` (`ocr_preprocess.py` line 165). -/
def direct_mask_name : List Char := "09_fixed240".data

/-- The label passed for the inverse-mask pass,
`f"10_fixed{inverse_threshold}_inv"` with `inverse_threshold = 300 - 240 = 60`
(`ocr_preprocess.py` line 166). -/
def inverse_mask_name : List Char := "10_fixed60_inv".data

/-- The per-candidate size filter inside `contours_and_overlay`
(`ocr_preprocess.py` lines 143–157), one Boolean conjunct per `continue`:
drop if `w < 30 or h < 30`; drop if the mask label starts with `"10_fixed"`
and `w > 150`; drop if `w > 600 or h > 600`; drop if `w * h > 250000`. -/
def size_filter_keep (name_pre : List Char) (r : TextRegion) : Bool :=
  !(decide (r.width < 30) || decide (r.height < 30)) &&
  !(List.isPrefixOf inv_mask_tag name_pre && decide (r.width > 150)) &&
  !(decide (r.width > 600) || decide (r.height > 600)) &&
  !decide (r.width * r.height > 250000)

/-- The combined size-filter/subsumption loop of
`ComicTextDetectorAdapter.detect_regions`
(`comic_text_detector_adapter.py` lines 75–96): a candidate is kept when it
passes the size checks (`30 ≤ w, h ≤ 600`, `w*h ≤ 250000`) and no candidate of
the *whole* flat pool at a different index has strictly larger area
(`(W*H) <= small_area: continue`) and covers at least `subsume_ratio = 0.8`
of its area. -/
def adapter_final_rects (flat_rects : List TextRegion) : List TextRegion :=
  ((flat_rects.enum.filter fun p =>
      !(decide (p.2.width < 30) || decide (p.2.height < 30)) &&
      !(decide (p.2.width > 600) || decide (p.2.height > 600)) &&
      !decide (p.2.width * p.2.height > 250000) &&
      !(flat_rects.enum.any fun q =>
          decide (q.1 ≠ p.1) &&
          !decide (q.2.width * q.2.height ≤ p.2.width * p.2.height) &&
          (decide (0 < p.2.width * p.2.height) &&
           decide (((inter_area p.2 q.2 : ℤ) : ℚ) /
               ((p.2.width * p.2.height : ℤ) : ℚ) ≥ (4 : ℚ) / 5)))).map
    Prod.snd)

/-- The sort key comparison of `boxes.sort(key=lambda r: (r.top, r.left))`
(`comic_text_detector_adapter.py` line 102) and
`regions.sort(key=lambda r: (r.top, r.left))` (`region_ocr_pipeline.py`
line 64): lexicographic `(top, left)` order. -/
def region_le (a b : TextRegion) : Bool :=
  decide (a.top < b.top) || (decide (a.top = b.top) && decide (a.left ≤ b.left))

/-- Python's `list.sort` is a stable sort; it is modeled by the (stable)
`List.mergeSort` under the `(top, left)` key comparison. -/
def sort_regions (l : List TextRegion) : List TextRegion :=
  l.mergeSort region_le

/-! ## Pixel-level model

Raster images, the two fixed thresholds, Gaussian blur, rectangular dilation
and bounding boxes of connected components.  The image enters the Python code
as a PIL image, is converted to RGB and then to grayscale with
`cv2.cvtColor(..., cv2.COLOR_RGB2GRAY)`; since the BT.601 weights of that
conversion sum to exactly 1, a pixel with equal channels `(v, v, v)` maps to
`v`, so images are modeled directly by their grayscale buffer. -/

/-- A grayscale raster image: width, height and a total pixel function
(meaningful on `x < w`, `y < h`; every consumer below guards its reads). -/
structure GrayImage where
  w : ℕ
  h : ℕ
  pix : ℕ → ℕ → ℕ

/-- The all-`v` image of claim C6's scenario ("all pixels one intensity"). -/
def uniform (w h v : ℕ) : GrayImage :=
  ⟨w, h, fun _ _ => v⟩

/-- Model of `cv2.threshold(blurred, fixed_threshold, 255, cv2.THRESH_BINARY)`
with `fixed_threshold = 240` (`ocr_preprocess.py` line 74,
`comic_text_detector_adapter.py` line 43), read as the foreground predicate of
the resulting mask: OpenCV sets `dst = maxval` iff `src > thresh`. -/
def th_fixed_fg (p : ℕ) : Bool :=
  decide (p > 240)

/-- Model of `cv2.threshold(blurred, inverse_threshold, 255,
cv2.THRESH_BINARY_INV)` with `inverse_threshold = 300 - 240 = 60`
(`ocr_preprocess.py` lines 78–79, `comic_text_detector_adapter.py`
lines 44–45): OpenCV sets `dst = 0` iff `src > thresh` and `dst = maxval`
otherwise, so the foreground predicate is `¬(p > 60)`, i.e. `p ≤ 60`. -/
def th_fixed_inv_fg (p : ℕ) : Bool :=
  !decide (p > 60)

/-- Index reflection for `BORDER_REFLECT_101` (`gfedcb|abcdefgh|gfedcba`),
the default border of `cv2.GaussianBlur`.  `s` is the unshifted tap position
`x + i`, standing for the source coordinate `x + i - 2` of the 5-tap kernel;
the subtraction is folded in so that everything stays in `ℕ`. -/
def reflect101 (n s : ℕ) : ℕ :=
  if s < 2 then 2 - s
  else if n ≤ s - 2 then 2 * n - 2 - (s - 2)
  else s - 2

/-- The fixed 5-tap binomial kernel `[1, 4, 6, 4, 1] / 16` that OpenCV
substitutes for `getGaussianKernel(5, sigma)` when `sigma = 0`. -/
def gk : List ℕ := [1, 4, 6, 4, 1]

/-- Model of `cv2.GaussianBlur(gray, (5, 5), 0)` (`comic_text_detector_adapter.py`
line 40): separable convolution with the binomial kernel `gk ⊗ gk` (total
weight 256), `BORDER_REFLECT_101` borders, and the fixed-point rounding
`(s + 128) / 256` OpenCV uses on 8-bit data. -/
def gaussian_blur5 (img : GrayImage) : GrayImage :=
  ⟨img.w, img.h, fun x y =>
    (((List.range 5).flatMap fun j => (List.range 5).map fun i =>
        gk.getD i 0 * gk.getD j 0 *
          img.pix (reflect101 img.w (x + i)) (reflect101 img.h (y + j))).sum
      + 128) / 256⟩

/-- Model of one application of `cv2.dilate(work, kernel)` with
`kernel = cv2.getStructuringElement(cv2.MORPH_RECT, (kw, kh))`
(`ocr_preprocess.py` lines 107–109): a pixel of the result is foreground iff
some source pixel under the `kw × kh` window anchored at the center is
foreground.  Out-of-image taps contribute background (OpenCV's dilation
border value).  The anchored tap offsets `x + i - kw/2` are computed in `ℤ`
and bounds-checked. -/
def dilate_once (w h kw kh : ℕ) (mask : ℕ → ℕ → Bool) : ℕ → ℕ → Bool :=
  fun x y =>
    decide (x < w) && decide (y < h) &&
    ((List.range kh).any fun j => (List.range kw).any fun i =>
      decide (0 ≤ (x : ℤ) + (i : ℤ) - (kw / 2 : ℕ)) &&
      decide ((x : ℤ) + (i : ℤ) - (kw / 2 : ℕ) < (w : ℤ)) &&
      decide (0 ≤ (y : ℤ) + (j : ℤ) - (kh / 2 : ℕ)) &&
      decide ((y : ℤ) + (j : ℤ) - (kh / 2 : ℕ) < (h : ℤ)) &&
      mask ((x : ℤ) + (i : ℤ) - (kw / 2 : ℕ)).toNat
        ((y : ℤ) + (j : ℤ) - (kh / 2 : ℕ)).toNat)

/-! ### Connected components

Model of `cv2.findContours(mask, cv2.RETR_EXTERNAL, cv2.CHAIN_APPROX_SIMPLE)`
followed by `cv2.boundingRect` on each contour: one axis-aligned bounding box
per 8-connected foreground component.  (`RETR_EXTERNAL` additionally drops a
component nested strictly inside a *hole* of another one; the masks for which
these definitions are used in the theorems below have at most one component,
where the two notions coincide, and contour enumeration order is likewise
irrelevant there.)

Components are computed by minimum-label propagation: every foreground pixel
starts with its raster index as label, and each pass replaces a pixel's label
by the minimum over its 8-neighborhood (restricted to foreground pixels).
`w * h` passes always reach the fixpoint, since the smallest label of a
component propagates along a shortest path, whose length is less than the
number of pixels. -/

/-- Minimum of two optional labels; `none` (background / out of bounds) is the
neutral element. -/
def opt_min : Option ℕ → Option ℕ → Option ℕ
  | none, b => b
  | some a, none => some a
  | some a, some b => some (min a b)

/-- The labels in the 8-neighborhood of `(x, y)`, the pixel itself included.
`ℕ` subtraction truncates at 0, which merely duplicates an in-window entry —
harmless under `opt_min`. -/
def nbhd_vals (lbl : ℕ → ℕ → Option ℕ) (x y : ℕ) : List (Option ℕ) :=
  [lbl (x - 1) (y - 1), lbl x (y - 1), lbl (x + 1) (y - 1),
   lbl (x - 1) y,       lbl x y,       lbl (x + 1) y,
   lbl (x - 1) (y + 1), lbl x (y + 1), lbl (x + 1) (y + 1)]

/-- Initial labeling: each in-bounds foreground pixel gets its raster index. -/
def lbl_init (w h : ℕ) (mask : ℕ → ℕ → Bool) : ℕ → ℕ → Option ℕ :=
  fun x y => if x < w ∧ y < h ∧ mask x y = true then some (y * w + x) else none

/-- One minimum-propagation pass. -/
def lbl_step (w h : ℕ) (mask : ℕ → ℕ → Bool) (lbl : ℕ → ℕ → Option ℕ) :
    ℕ → ℕ → Option ℕ :=
  fun x y =>
    if x < w ∧ y < h ∧ mask x y = true then
      (nbhd_vals lbl x y).foldl opt_min none
    else none

/-- The component labeling after `w * h` propagation passes. -/
def comp_labels (w h : ℕ) (mask : ℕ → ℕ → Bool) : ℕ → ℕ → Option ℕ :=
  (lbl_step w h mask)^[w * h] (lbl_init w h mask)

/-- All in-bounds pixel coordinates in raster order. -/
def raster (w h : ℕ) : List (ℕ × ℕ) :=
  (List.range h).flatMap fun y => (List.range w).map fun x => (x, y)

/-- Axis-aligned bounding box of a set of pixels, as an `(x, y, w, h)` rect
(the value on `[]` is never used: every component is nonempty). -/
def bbox_rect (pts : List (ℕ × ℕ)) : TextRegion :=
  match pts with
  | [] => ⟨0, 0, 0, 0⟩
  | p :: rest =>
    let x1 := rest.foldl (fun a q => min a q.1) p.1
    let y1 := rest.foldl (fun a q => min a q.2) p.2
    let x2 := rest.foldl (fun a q => max a q.1) p.1
    let y2 := rest.foldl (fun a q => max a q.2) p.2
    ⟨(x1 : ℤ), (y1 : ℤ), ((x2 + 1 - x1 : ℕ) : ℤ), ((y2 + 1 - y1 : ℕ) : ℤ)⟩

/-- Bounding boxes of the 8-connected foreground components of a mask: the
model of the `collect_rects` helper of `comic_text_detector_adapter.py`
(lines 47–58) and of the per-setting contour/`boundingRect` extraction of
`ocr_preprocess.py` (lines 110–124). -/
def component_rects (w h : ℕ) (mask : ℕ → ℕ → Bool) : List TextRegion :=
  let lbl := comp_labels w h mask
  let labs := ((raster w h).filterMap fun p => lbl p.1 p.2).dedup
  labs.map fun l0 =>
    bbox_rect ((raster w h).filter fun p => decide (lbl p.1 p.2 = some l0))

/-! ## Assembled pipeline functions -/

/-- The flat candidate pool of `ComicTextDetectorAdapter.detect_regions`
(`comic_text_detector_adapter.py` lines 38–62): blur, threshold both ways,
collect the contour bounding rects of both masks and concatenate
(`flat_rects = rects_fixed + rects_inv`). -/
def adapter_flat_rects (img : GrayImage) : List TextRegion :=
  let blurred := gaussian_blur5 img
  let th_fixed := fun x y => th_fixed_fg (blurred.pix x y)
  let th_fixed_inv := fun x y => th_fixed_inv_fg (blurred.pix x y)
  let rects_fixed := component_rects img.w img.h th_fixed
  let rects_inv := component_rects img.w img.h th_fixed_inv
  rects_fixed ++ rects_inv

/-- The method `ComicTextDetectorAdapter.detect_regions` (lines 37–103): candidate pool,
size filter + subsumption in one pass, then
`boxes.sort(key=lambda r: (r.top, r.left))`. -/
def detect_regions (img : GrayImage) : List TextRegion :=
  sort_regions (adapter_final_rects (adapter_flat_rects img))

/-- Python exception classes relevant to the detection entry points.
`invalidInputError` is the failure class the spec posits (§7); nothing in the
repository defines or raises it — it is listed so that its absence from every
outcome can be stated. -/
inductive PyError where
  | attributeError
  | cv2AssertError
  | typeError
  | valueError
  | invalidInputError
deriving DecidableEq

/-- The method `ComicTextDetectorAdapter.detect_regions` as called on a possibly-null
image: `None.convert("RGB")` raises `AttributeError`; on a zero-width or
zero-height image `np.array(...)` is empty and
`cv2.cvtColor` raises `cv2.error` from its `!_src.empty()` assertion before
any detection happens.  Both are modeled from the documented library
behavior; the code itself contains no input validation. -/
def detect_regions_call (img : Option GrayImage) :
    Except PyError (List TextRegion) :=
  match img with
  | none => .error .attributeError
  | some im =>
    if im.w = 0 ∨ im.h = 0 then .error .cv2AssertError
    else .ok (detect_regions im)

/-- What the body of `detect_text_regions` (`region_ocr_pipeline.py` lines
58–65) computes *after* the adapter is obtained: detect, suppress nested
boxes with `subsume_ratio=0.8`, and stable-sort by `(top, left)`. -/
def detect_text_regions (img : GrayImage) : List TextRegion :=
  sort_regions (suppress_nested_boxes (detect_regions img) ((4 : ℚ) / 5))

/-- The function `detect_text_regions` as actually written: line 61 executes
`ComicTextDetectorAdapter(device=device, models_dir=models_dir)`, but the
adapter's `__init__(self)` accepts no keyword arguments
(`comic_text_detector_adapter.py` line 31), so every call raises `TypeError`
before any detection work, for every input image. -/
def detect_text_regions_call (_img : Option GrayImage) :
    Except PyError (List TextRegion) :=
  .error .typeError

/-- The dilation-trial list `kernel_trials = [(3, 5, 1), (5, 10, 2),
(5, 15, 4), (7, 7, 2)]` of `ocr_preprocess.py` line 164. -/
def kernel_trials : List (ℕ × ℕ × ℕ) :=
  [(3, 5, 1), (5, 10, 2), (5, 15, 4), (7, 7, 2)]

/-- The `contours_and_overlay` helper of `preprocess_for_ocr`
(`ocr_preprocess.py` lines 92–162): for the baseline setting `(1, 1, 0)`
followed by each configured trial, dilate `iters` times when `iters > 0`
(the mask is already binary, so the `(bin_img > 0) * 255` renormalization is
the identity here), extract the contour bounding rects, and size-filter
them; one filtered list per setting is returned. -/
def contours_and_overlay (w h : ℕ) (bin_img : ℕ → ℕ → Bool)
    (name_pre : List Char) (kernel_sizes_iters : List (ℕ × ℕ × ℕ)) :
    List (List TextRegion) :=
  let settings := (1, 1, 0) :: kernel_sizes_iters
  settings.map fun s =>
    let work := if s.2.2 > 0 then (dilate_once w h s.1 s.2.1)^[s.2.2] bin_img
                else bin_img
    (component_rects w h work).filter (size_filter_keep name_pre)

/-- The observable outcome of `preprocess_for_ocr`: the aggregated,
subsumption-suppressed pool it computes and logs (`final_rects`,
`ocr_preprocess.py` lines 173–207), and the value the *caller* receives
(`ret`). -/
structure PreprocOut where
  final_rects : List TextRegion
  ret : Option (List TextRegion)
deriving DecidableEq

/-- The function `preprocess_for_ocr` (`ocr_preprocess.py` lines 56–211): grayscale
(modeled by the input buffer itself), blur skipped (`override = True` at
line 63), both fixed thresholds, contour trials on each mask, aggregation
`rects1 + rects2` flattened, and the final subsumption loop.  The function
body then logs `final_rects`, shows a debug overlay, and ends without a
`return` statement, so Python hands `None` back to the caller — despite the
`-> Image.Image` annotation and the inner docstring's "Returns a list of
lists"; hence `ret := none`. -/
def preprocess_for_ocr (img : GrayImage) : PreprocOut :=
  let blurred := img
  let th_fixed := fun x y => th_fixed_fg (blurred.pix x y)
  let th_fixed_inv := fun x y => th_fixed_inv_fg (blurred.pix x y)
  let rects1 := contours_and_overlay img.w img.h th_fixed
    direct_mask_name kernel_trials
  let rects2 := contours_and_overlay img.w img.h th_fixed_inv
    inverse_mask_name kernel_trials
  let flat_rects := (rects1 ++ rects2).flatten
  ⟨final_rects_of flat_rects, none⟩

/-- The function `preprocess_for_ocr` as called on a possibly-null image, with the same
library failure modes as `detect_regions_call`: `AttributeError` on `None`,
`cv2.error` (assertion) on a zero-area image. -/
def preprocess_for_ocr_call (img : Option GrayImage) :
    Except PyError PreprocOut :=
  match img with
  | none => .error .attributeError
  | some im =>
    if im.w = 0 ∨ im.h = 0 then .error .cv2AssertError
    else .ok (preprocess_for_ocr im)

/-! ## Region cropping -/

/-- Python `int()` applied to a real number: truncation toward zero. -/
def py_int (q : ℚ) : ℤ :=
  if 0 ≤ q then ⌊q⌋ else ⌈q⌉

/-- The pad amount `int(min(r.width, r.height) * pad_frac)` of `pad_crop`
(`region_ocr_pipeline.py` line 50).  The Python literal `0.06` is the nearest
binary double to `6/100`; the fraction is modeled exactly over `ℚ` (the
difference cannot change the truncation for any region small enough to arise
from a raster image). -/
def crop_pad (r : TextRegion) (pad_frac : ℚ) : ℤ :=
  py_int ((min r.width r.height : ℤ) * pad_frac)

/-- The sub-image rectangle a `pad_crop` call selects. -/
structure CropBox where
  x1 : ℤ
  y1 : ℤ
  x2 : ℤ
  y2 : ℤ
deriving DecidableEq

/-- The function `pad_crop` (`region_ocr_pipeline.py` lines 48–55): expand the region by
`pad` on every side, clamp `x1, y1` below by 0 and `x2, y2` above by the
image size, and hand the box to `PIL.Image.crop`.  PIL's `crop` raises
`ValueError` when `right < left` or `lower < upper` — the code never checks
that the clamped box is non-inverted. -/
def pad_crop (W H : ℤ) (r : TextRegion) (pad_frac : ℚ) :
    Except PyError CropBox :=
  let pad := crop_pad r pad_frac
  let x1 := max 0 (r.left - pad)
  let y1 := max 0 (r.top - pad)
  let x2 := min W (r.left + r.width + pad)
  let y2 := min H (r.top + r.height + pad)
  if x2 < x1 ∨ y2 < y1 then .error .valueError
  else .ok ⟨x1, y1, x2, y2⟩

/-- The index-free keep condition of `suppress_nested_boxes`: positive area
and no strictly larger element of the pool covering at least the fraction
`subsume_ratio` of the candidate's area. -/
def sup_keep (regions : List TextRegion) (subsume_ratio : ℚ)
    (r : TextRegion) : Bool :=
  decide (0 < r.width * r.height) &&
  !(regions.any fun b =>
      decide (r.width * r.height < b.width * b.height) &&
      decide (((inter_area r b : ℤ) : ℚ) /
          ((r.width * r.height : ℤ) : ℚ) ≥ subsume_ratio))

/-! ## Lemmas about the suppression stage -/

/-- The intersection area of two rects is never negative. -/
lemma inter_area_nonneg (a b : TextRegion) : 0 ≤ inter_area a b := by
  simp only [inter_area]
  split
  · exact le_refl 0
  · rename_i hlt
    push_neg at hlt
    exact le_of_lt (mul_pos (by omega) (by omega))

/-- The `i == j` guard of the suppression loops only skips the candidate's own
position; since a dominator must have strictly larger area than the candidate,
the candidate's own entry never qualifies anyway, so quantifying over indexed
entries at a different index is the same as quantifying over all elements. -/
lemma exists_enum_ne_iff {l : List TextRegion} {i : ℕ} {small : TextRegion}
    (hi : l[i]? = some small) (P : TextRegion → Prop)
    (hP : ∀ b, P b → small.width * small.height < b.width * b.height) :
    (∃ q ∈ l.enum, q.1 ≠ i ∧ P q.2) ↔ ∃ b ∈ l, P b := by
  constructor
  · rintro ⟨⟨j, b⟩, hq, _, hPb⟩
    rw [List.mem_enum_iff_getElem?] at hq
    exact ⟨b, List.mem_iff_getElem?.mpr ⟨j, hq⟩, hPb⟩
  · rintro ⟨b, hb, hPb⟩
    obtain ⟨j, hj⟩ := List.mem_iff_getElem?.mp hb
    refine ⟨(j, b), List.mem_enum_iff_getElem?.mpr hj, ?_, hPb⟩
    intro hji
    have hji' : j = i := hji
    rw [hji', hi] at hj
    have hbs : b = small := by injection hj with h; exact h.symm
    subst hbs
    exact lt_irrefl _ (hP b hPb)

/-- The indexed dominator scan of `suppress_nested_boxes` equals the
index-free scan over the whole pool. -/
lemma suppress_any_eq (l : List TextRegion) (ρ : ℚ) (i : ℕ)
    (small : TextRegion) (hi : l[i]? = some small) :
    (l.enum.any fun q =>
        decide (q.1 ≠ i) &&
        decide (small.width * small.height < q.2.width * q.2.height) &&
        decide (((inter_area small q.2 : ℤ) : ℚ) /
            ((small.width * small.height : ℤ) : ℚ) ≥ ρ))
      = (l.any fun b =>
          decide (small.width * small.height < b.width * b.height) &&
          decide (((inter_area small b : ℤ) : ℚ) /
              ((small.width * small.height : ℤ) : ℚ) ≥ ρ)) := by
  rw [Bool.eq_iff_iff, List.any_eq_true, List.any_eq_true]
  simp only [Bool.and_eq_true, decide_eq_true_eq, and_assoc]
  exact exists_enum_ne_iff hi
    (fun b => small.width * small.height < b.width * b.height ∧
      ((inter_area small b : ℤ) : ℚ) /
        ((small.width * small.height : ℤ) : ℚ) ≥ ρ)
    (fun b hb => hb.1)

/-- The function `suppress_nested_boxes` is the plain filter by the index-free keep
condition. -/
lemma suppress_nested_boxes_eq_filter (l : List TextRegion) (ρ : ℚ) :
    suppress_nested_boxes l ρ = l.filter (sup_keep l ρ) := by
  unfold suppress_nested_boxes
  have hcong : ∀ p ∈ l.enum,
      (decide (0 < p.2.width * p.2.height) &&
        !(l.enum.any fun q =>
            decide (q.1 ≠ p.1) &&
            decide (p.2.width * p.2.height < q.2.width * q.2.height) &&
            decide (((inter_area p.2 q.2 : ℤ) : ℚ) /
                ((p.2.width * p.2.height : ℤ) : ℚ) ≥ ρ)))
        = sup_keep l ρ p.2 := by
    rintro ⟨i, small⟩ hp
    rw [List.mem_enum_iff_getElem?] at hp
    unfold sup_keep
    rw [suppress_any_eq l ρ i small hp]
  rw [List.filter_congr hcong]
  have hmap : l.filter (sup_keep l ρ) =
      (l.enum.map Prod.snd).filter (sup_keep l ρ) := by
    rw [List.enum_map_snd]
  rw [hmap, List.filter_map]
  rfl

/-- Both suppression outputs are contained in their input pool. -/
lemma mem_of_mem_enum_filter_map {l : List TextRegion}
    {P : ℕ × TextRegion → Bool} {r : TextRegion}
    (h : r ∈ (l.enum.filter P).map Prod.snd) : r ∈ l := by
  have hsub : ((l.enum.filter P).map Prod.snd).Sublist (l.enum.map Prod.snd) :=
    (List.filter_sublist _).map Prod.snd
  rw [List.enum_map_snd] at hsub
  exact hsub.subset h

/-! ## Claim C2 -/

/-- C2 (confirmed).  After the single-pass subsumption suppressor runs on
any aggregated pool, no surviving region is ≥80% contained in a strictly
larger *surviving* region: for kept `R`, `Rb` with `area Rb > area R`,
`interArea(R,Rb) / area R < subsume_ratio` — for `suppress_nested_boxes` at
every ratio, and for the `final_rects` loop of `preprocess_for_ocr` at its
hard-coded `0.8`.  One pass suffices even under chained containment, because
each removal is decided against the *full* input pool, not the survivors. -/
theorem C2_subsumption_invariant :
    (∀ (regions : List TextRegion) (ρ : ℚ) (R Rb : TextRegion),
      R ∈ suppress_nested_boxes regions ρ →
      Rb ∈ suppress_nested_boxes regions ρ →
      R.width * R.height < Rb.width * Rb.height →
      ((inter_area R Rb : ℤ) : ℚ) / ((R.width * R.height : ℤ) : ℚ) < ρ) ∧
    (∀ (flat : List TextRegion) (R Rb : TextRegion),
      R ∈ final_rects_of flat →
      Rb ∈ final_rects_of flat →
      R.width * R.height < Rb.width * Rb.height →
      ((inter_area R Rb : ℤ) : ℚ) / ((R.width * R.height : ℤ) : ℚ)
        < (4 : ℚ) / 5) := by
  constructor
  · intro l ρ R Rb hR hRb harea
    rw [suppress_nested_boxes_eq_filter, List.mem_filter] at hR hRb
    obtain ⟨hRl, hRk⟩ := hR
    unfold sup_keep at hRk
    simp only [Bool.and_eq_true, Bool.not_eq_true', decide_eq_true_eq] at hRk
    obtain ⟨hpos, hany⟩ := hRk
    rw [List.any_eq_false] at hany
    have hdom := hany Rb hRb.1
    simp only [Bool.and_eq_true, decide_eq_true_eq, not_and] at hdom
    exact lt_of_not_ge (hdom harea)
  · intro flat R Rb hR hRb harea
    have hRb_mem : Rb ∈ flat := mem_of_mem_enum_filter_map hRb
    unfold final_rects_of at hR
    rw [List.mem_map] at hR
    obtain ⟨p, hpf, rfl⟩ := hR
    rw [List.mem_filter] at hpf
    obtain ⟨hpe, hP⟩ := hpf
    rw [List.mem_enum_iff_getElem?] at hpe
    rw [Bool.not_eq_true', List.any_eq_false] at hP
    rcases le_or_lt (p.2.width * p.2.height) 0 with hsa | hsa
    · have h1 : ((inter_area p.2 Rb : ℤ) : ℚ) /
          ((p.2.width * p.2.height : ℤ) : ℚ) ≤ 0 :=
        div_nonpos_of_nonneg_of_nonpos
          (by exact_mod_cast inter_area_nonneg p.2 Rb) (by exact_mod_cast hsa)
      exact lt_of_le_of_lt h1 (by norm_num)
    · obtain ⟨j, hj⟩ := List.mem_iff_getElem?.mp hRb_mem
      have hji : j ≠ p.1 := by
        intro h
        rw [h, hpe] at hj
        have hbr : Rb = p.2 := by injection hj with hj2; exact hj2.symm
        subst hbr
        exact lt_irrefl _ harea
      have hbody := hP (j, Rb) (List.mem_enum_iff_getElem?.mpr hj)
      simp only [Bool.and_eq_true, decide_eq_true_eq] at hbody
      by_contra hcon
      exact hbody ⟨⟨hji, harea⟩, hsa, not_lt.mp hcon⟩

/-- Witness for C2: on the pool `[A, B]` of two disjoint squares, both
survive, `B` is strictly larger, and the containment ratio of `A` in `B`
is `0 < 0.8`. -/
theorem C2_subsumption_invariant_witness :
    (⟨0, 0, 30, 30⟩ : TextRegion) ∈
        suppress_nested_boxes [⟨0, 0, 30, 30⟩, ⟨200, 200, 100, 100⟩]
          ((4 : ℚ) / 5) ∧
    (⟨200, 200, 100, 100⟩ : TextRegion) ∈
        suppress_nested_boxes [⟨0, 0, 30, 30⟩, ⟨200, 200, 100, 100⟩]
          ((4 : ℚ) / 5) ∧
    (30 * 30 : ℤ) < 100 * 100 ∧
    ((inter_area ⟨0, 0, 30, 30⟩ ⟨200, 200, 100, 100⟩ : ℤ) : ℚ) /
        (((30 * 30 : ℤ) : ℚ)) < (4 : ℚ) / 5 := by
  have hA : sup_keep [⟨0, 0, 30, 30⟩, ⟨200, 200, 100, 100⟩] ((4 : ℚ) / 5)
      ⟨0, 0, 30, 30⟩ = true := by
    unfold sup_keep inter_area
    norm_num
  have hB : sup_keep [⟨0, 0, 30, 30⟩, ⟨200, 200, 100, 100⟩] ((4 : ℚ) / 5)
      ⟨200, 200, 100, 100⟩ = true := by
    unfold sup_keep inter_area
    norm_num
  have hmemA : (⟨0, 0, 30, 30⟩ : TextRegion) ∈
      suppress_nested_boxes [⟨0, 0, 30, 30⟩, ⟨200, 200, 100, 100⟩]
        ((4 : ℚ) / 5) := by
    rw [suppress_nested_boxes_eq_filter, List.mem_filter]
    exact ⟨by simp, hA⟩
  have hmemB : (⟨200, 200, 100, 100⟩ : TextRegion) ∈
      suppress_nested_boxes [⟨0, 0, 30, 30⟩, ⟨200, 200, 100, 100⟩]
        ((4 : ℚ) / 5) := by
    rw [suppress_nested_boxes_eq_filter, List.mem_filter]
    exact ⟨by simp, hB⟩
  have harea : ((⟨0, 0, 30, 30⟩ : TextRegion).width *
      (⟨0, 0, 30, 30⟩ : TextRegion).height : ℤ) <
      (⟨200, 200, 100, 100⟩ : TextRegion).width *
        (⟨200, 200, 100, 100⟩ : TextRegion).height := by norm_num
  exact ⟨hmemA, hmemB, by norm_num,
    C2_subsumption_invariant.1 _ ((4 : ℚ) / 5) _ _ hmemA hmemB harea⟩

/-! ## Claim C10 -/

/-- C10 (confirmed).  `suppress_nested_boxes` is idempotent for every
region list and every subsume ratio: every survivor has positive area and no
dominator in the full input pool, hence none in the (smaller) survivor pool,
so a second pass keeps everything in order. -/
theorem C10_suppress_nested_boxes_idempotent :
    ∀ (regions : List TextRegion) (subsume_ratio : ℚ),
      suppress_nested_boxes (suppress_nested_boxes regions subsume_ratio)
          subsume_ratio
        = suppress_nested_boxes regions subsume_ratio := by
  intro l ρ
  rw [suppress_nested_boxes_eq_filter l ρ,
    suppress_nested_boxes_eq_filter (l.filter (sup_keep l ρ)) ρ]
  apply List.filter_eq_self.mpr
  intro r hr
  rw [List.mem_filter] at hr
  obtain ⟨hrl, hkeep⟩ := hr
  unfold sup_keep at hkeep ⊢
  simp only [Bool.and_eq_true, Bool.not_eq_true', decide_eq_true_eq]
    at hkeep ⊢
  obtain ⟨hpos, hany⟩ := hkeep
  refine ⟨hpos, ?_⟩
  rw [List.any_eq_false] at hany ⊢
  intro b hb
  exact hany b ((List.filter_sublist l).subset hb)

/-! ## Claims C4 and C5 -/

/-- C4 (confirmed).  Every candidate that survives the size filter — the
per-trial filter of `contours_and_overlay` under any mask label, and the
size checks of the adapter's combined loop — satisfies `30 ≤ width ≤ 600`,
`30 ≤ height ≤ 600` and `width * height ≤ 250000`. -/
theorem C4_size_filter_bounds :
    (∀ (name_pre : List Char) (rects : List TextRegion) (r : TextRegion),
      r ∈ rects.filter (size_filter_keep name_pre) →
      30 ≤ r.width ∧ r.width ≤ 600 ∧ 30 ≤ r.height ∧ r.height ≤ 600 ∧
        r.width * r.height ≤ 250000) ∧
    (∀ (flat_rects : List TextRegion) (r : TextRegion),
      r ∈ adapter_final_rects flat_rects →
      30 ≤ r.width ∧ r.width ≤ 600 ∧ 30 ≤ r.height ∧ r.height ≤ 600 ∧
        r.width * r.height ≤ 250000) := by
  constructor
  · intro name_pre rects r hr
    rw [List.mem_filter] at hr
    have hk := hr.2
    unfold size_filter_keep at hk
    simp only [Bool.and_eq_true, Bool.not_eq_true'] at hk
    obtain ⟨⟨⟨hsmall, _⟩, hbig⟩, hwh⟩ := hk
    rw [Bool.or_eq_false_iff] at hsmall hbig
    rw [decide_eq_false_iff_not] at hwh
    obtain ⟨hw1, hh1⟩ := hsmall
    obtain ⟨hw2, hh2⟩ := hbig
    rw [decide_eq_false_iff_not] at hw1 hh1 hw2 hh2
    exact ⟨not_lt.mp hw1, not_lt.mp hw2, not_lt.mp hh1, not_lt.mp hh2,
      not_lt.mp hwh⟩
  · intro flat r hr
    unfold adapter_final_rects at hr
    rw [List.mem_map] at hr
    obtain ⟨p, hpf, rfl⟩ := hr
    rw [List.mem_filter] at hpf
    have hk := hpf.2
    simp only [Bool.and_eq_true, Bool.not_eq_true'] at hk
    obtain ⟨⟨⟨hsmall, hbig⟩, hwh⟩, _⟩ := hk
    rw [Bool.or_eq_false_iff] at hsmall hbig
    rw [decide_eq_false_iff_not] at hwh
    obtain ⟨hw1, hh1⟩ := hsmall
    obtain ⟨hw2, hh2⟩ := hbig
    rw [decide_eq_false_iff_not] at hw1 hh1 hw2 hh2
    exact ⟨not_lt.mp hw1, not_lt.mp hw2, not_lt.mp hh1, not_lt.mp hh2,
      not_lt.mp hwh⟩

/-- Witness for C4: a 50×50 candidate surviving both filter variants, with
the claimed bounds. -/
theorem C4_size_filter_bounds_witness :
    ((⟨0, 0, 50, 50⟩ : TextRegion) ∈
        [(⟨0, 0, 50, 50⟩ : TextRegion)].filter
          (size_filter_keep direct_mask_name) ∧
      (30 : ℤ) ≤ 50 ∧ (50 : ℤ) ≤ 600 ∧ (30 : ℤ) ≤ 50 ∧ (50 : ℤ) ≤ 600 ∧
        (50 * 50 : ℤ) ≤ 250000) ∧
    ((⟨0, 0, 50, 50⟩ : TextRegion) ∈
        adapter_final_rects [(⟨0, 0, 50, 50⟩ : TextRegion)] ∧
      (30 : ℤ) ≤ 50 ∧ (50 : ℤ) ≤ 600 ∧ (30 : ℤ) ≤ 50 ∧ (50 : ℤ) ≤ 600 ∧
        (50 * 50 : ℤ) ≤ 250000) := by
  have h1 : (⟨0, 0, 50, 50⟩ : TextRegion) ∈
      [(⟨0, 0, 50, 50⟩ : TextRegion)].filter
        (size_filter_keep direct_mask_name) := by decide
  have h2 : (⟨0, 0, 50, 50⟩ : TextRegion) ∈
      adapter_final_rects [(⟨0, 0, 50, 50⟩ : TextRegion)] := by decide
  exact ⟨⟨h1, C4_size_filter_bounds.1 direct_mask_name _ _ h1⟩,
    ⟨h2, C4_size_filter_bounds.2 _ _ h2⟩⟩

/-- C5 (confirmed).  Under any mask label starting with `"10_fixed"` —
in particular the inverse-mask label `"10_fixed60_inv"`, and never the
direct-mask label `"09_fixed240"` — every surviving candidate additionally
satisfies `width ≤ 150` (the trial-tuned cap, which lies in the spec's
100–150 px range), while a candidate of identical geometry is kept under the
direct-mask label whenever it meets the shared 30/600/250000 bounds alone. -/
theorem C5_inverse_width_cap :
    (∀ (name_pre : List Char) (rects : List TextRegion) (r : TextRegion),
      List.isPrefixOf inv_mask_tag name_pre = true →
      r ∈ rects.filter (size_filter_keep name_pre) → r.width ≤ 150) ∧
    (∀ (r : TextRegion),
      30 ≤ r.width → r.width ≤ 600 → 30 ≤ r.height → r.height ≤ 600 →
      r.width * r.height ≤ 250000 →
      size_filter_keep direct_mask_name r = true) ∧
    (List.isPrefixOf inv_mask_tag inverse_mask_name = true ∧
      List.isPrefixOf inv_mask_tag direct_mask_name = false) := by
  refine ⟨?_, ?_, by decide, by decide⟩
  · intro name_pre rects r htag hr
    rw [List.mem_filter] at hr
    have hk := hr.2
    unfold size_filter_keep at hk
    simp only [Bool.and_eq_true, Bool.not_eq_true'] at hk
    obtain ⟨⟨⟨_, hcap⟩, _⟩, _⟩ := hk
    rw [htag, Bool.true_and, decide_eq_false_iff_not] at hcap
    exact not_lt.mp hcap
  · intro r hw1 hw2 hh1 hh2 hwh
    unfold size_filter_keep
    rw [show List.isPrefixOf inv_mask_tag direct_mask_name = false from
      by decide]
    simp only [Bool.false_and, Bool.not_false, Bool.and_true,
      Bool.and_eq_true, Bool.not_eq_true', Bool.or_eq_false_iff,
      decide_eq_false_iff_not]
    exact ⟨⟨⟨not_lt.mpr hw1, not_lt.mpr hh1⟩,
      ⟨not_lt.mpr hw2, not_lt.mpr hh2⟩⟩, not_lt.mpr hwh⟩

/-- Witness for C5: a 140-wide candidate survives the inverse-mask filter
(and indeed has width ≤ 150), while a 200-wide candidate — too wide for the
inverse mask — is kept under the direct-mask label. -/
theorem C5_inverse_width_cap_witness :
    ((⟨0, 0, 140, 50⟩ : TextRegion) ∈
        [(⟨0, 0, 140, 50⟩ : TextRegion)].filter
          (size_filter_keep inverse_mask_name) ∧
      (140 : ℤ) ≤ 150) ∧
    size_filter_keep direct_mask_name ⟨0, 0, 200, 50⟩ = true ∧
    size_filter_keep inverse_mask_name ⟨0, 0, 200, 50⟩ = false := by
  have hmem : (⟨0, 0, 140, 50⟩ : TextRegion) ∈
      [(⟨0, 0, 140, 50⟩ : TextRegion)].filter
        (size_filter_keep inverse_mask_name) := by decide
  refine ⟨⟨hmem, C5_inverse_width_cap.1 inverse_mask_name _ _
    (by decide) hmem⟩, ?_, by decide⟩
  exact C5_inverse_width_cap.2.1 ⟨0, 0, 200, 50⟩ (by norm_num) (by norm_num)
    (by norm_num) (by norm_num) (by norm_num)

/-! ## Lemmas about the sorting stage -/

lemma region_le_trans (a b c : TextRegion) (hab : region_le a b = true)
    (hbc : region_le b c = true) : region_le a c = true := by
  unfold region_le at *
  simp only [Bool.or_eq_true, Bool.and_eq_true, decide_eq_true_eq] at *
  omega

lemma region_le_total (a b : TextRegion) :
    (region_le a b || region_le b a) = true := by
  unfold region_le
  simp only [Bool.or_eq_true, Bool.and_eq_true, decide_eq_true_eq]
  omega

/-- The `sort_regions` output is pairwise `(top, left)`-ordered. -/
lemma sort_regions_sorted (l : List TextRegion) :
    List.Pairwise (fun a b => region_le a b = true) (sort_regions l) :=
  List.sorted_mergeSort region_le_trans region_le_total l

/-- Stability of `sort_regions`, in filter form: for any fixed key
`(t, lft)`, the sublist of output regions with exactly that key is the
sublist of input regions with that key, in the same order. -/
lemma sort_regions_filter_key (l : List TextRegion) (t lft : ℤ) :
    (sort_regions l).filter
        (fun r => decide (r.top = t) && decide (r.left = lft))
      = l.filter (fun r => decide (r.top = t) && decide (r.left = lft)) := by
  set p : TextRegion → Bool :=
    fun r => decide (r.top = t) && decide (r.left = lft) with hp
  have hpair : List.Pairwise (fun a b => region_le a b = true)
      (l.filter p) := by
    apply List.pairwise_of_forall_mem_list
    intro a ha b hb
    rw [List.mem_filter] at ha hb
    have ha2 := ha.2
    have hb2 := hb.2
    rw [hp] at ha2 hb2
    simp only [Bool.and_eq_true, decide_eq_true_eq] at ha2 hb2
    unfold region_le
    simp only [Bool.or_eq_true, Bool.and_eq_true, decide_eq_true_eq]
    omega
  have hsub : (l.filter p).Sublist (sort_regions l) :=
    List.sublist_mergeSort region_le_trans region_le_total hpair
      (List.filter_sublist l)
  have hsub2 : (l.filter p).Sublist ((sort_regions l).filter p) := by
    have h1 : ((l.filter p).filter p).Sublist ((sort_regions l).filter p) :=
      hsub.filter p
    rwa [List.filter_filter,
      List.filter_congr (fun a _ => Bool.and_self (p a))] at h1
  have hlen : (l.filter p).length = ((sort_regions l).filter p).length := by
    rw [← List.countP_eq_length_filter, ← List.countP_eq_length_filter]
    exact ((List.mergeSort_perm l region_le).countP_eq p).symm
  exact (hsub2.eq_of_length hlen).symm

/-! ## Claim C3 -/

/-- C3 (code bug).  The sorting itself is correct and stable: the list
`detect_regions` returns — and the list the body of `detect_text_regions`
computes after suppression — is pairwise `(top, left)`-sorted, and for every
key the regions carrying that key appear exactly as in the pre-sort list
(stability).  But `detect_text_regions` as written never returns it: its
line 61 passes `device=`/`models_dir=` keyword arguments to
`ComicTextDetectorAdapter.__init__`, which accepts none, so every call
raises `TypeError` first. -/
theorem C3_sorting :
    (∀ inp : Option GrayImage,
      detect_text_regions_call inp = .error .typeError) ∧
    (∀ img : GrayImage,
      List.Pairwise (fun a b => region_le a b = true) (detect_regions img)) ∧
    (∀ (img : GrayImage) (t lft : ℤ),
      (detect_regions img).filter
          (fun r => decide (r.top = t) && decide (r.left = lft))
        = (adapter_final_rects (adapter_flat_rects img)).filter
            (fun r => decide (r.top = t) && decide (r.left = lft))) ∧
    (∀ img : GrayImage,
      List.Pairwise (fun a b => region_le a b = true)
        (detect_text_regions img)) ∧
    (∀ (img : GrayImage) (t lft : ℤ),
      (detect_text_regions img).filter
          (fun r => decide (r.top = t) && decide (r.left = lft))
        = (suppress_nested_boxes (detect_regions img) ((4 : ℚ) / 5)).filter
            (fun r => decide (r.top = t) && decide (r.left = lft))) := by
  refine ⟨fun _ => rfl, fun img => sort_regions_sorted _, fun img t lft => ?_,
    fun img => sort_regions_sorted _, fun img t lft => ?_⟩
  · exact sort_regions_filter_key _ t lft
  · exact sort_regions_filter_key _ t lft

/-! ## Lemmas about component extraction -/

lemma foldl_opt_min_some_le (t : List (Option ℕ)) (k : ℕ) :
    ∃ m, m ≤ k ∧ t.foldl opt_min (some k) = some m := by
  induction t generalizing k with
  | nil => exact ⟨k, le_refl k, rfl⟩
  | cons b t ih =>
    cases b with
    | none => simpa [opt_min] using ih k
    | some x =>
      obtain ⟨m, hm, hfold⟩ := ih (min k x)
      exact ⟨m, le_trans hm (min_le_left _ _), by simpa [opt_min] using hfold⟩

lemma foldl_opt_min_zero_mem (L : List (Option ℕ)) :
    ∀ acc, some 0 ∈ L → L.foldl opt_min acc = some 0 := by
  induction L with
  | nil => intro acc h; exact absurd h (List.not_mem_nil _)
  | cons b t ih =>
    intro acc h
    rcases List.mem_cons.mp h with hb | ht
    · subst hb
      have hacc : opt_min acc (some 0) = some 0 := by
        cases acc with
        | none => rfl
        | some a => simp [opt_min]
      rw [List.foldl_cons, hacc]
      obtain ⟨m, hm, hfold⟩ := foldl_opt_min_some_le t 0
      rw [hfold, Nat.le_zero.mp hm]
    · exact ih (opt_min acc b) ht

/-- On a mask with no in-bounds foreground pixel, every label is `none` at
every stage. -/
lemma comp_labels_of_empty (w h : ℕ) (mask : ℕ → ℕ → Bool)
    (hmask : ∀ x y, x < w → y < h → mask x y = false) :
    ∀ x y, comp_labels w h mask x y = none := by
  have hguard : ∀ x y, ¬(x < w ∧ y < h ∧ mask x y = true) := by
    rintro x y ⟨hx, hy, hm⟩
    rw [hmask x y hx hy] at hm
    exact Bool.false_ne_true hm
  have hstep : ∀ (lbl : ℕ → ℕ → Option ℕ) x y,
      lbl_step w h mask lbl x y = none := by
    intro lbl x y
    unfold lbl_step
    rw [if_neg (hguard x y)]
  intro x y
  unfold comp_labels
  cases hk : w * h with
  | zero => unfold lbl_init; rw [Function.iterate_zero_apply,
      if_neg (hguard x y)]
  | succ n => rw [Function.iterate_succ_apply', hstep]

/-- On a mask that is foreground at every in-bounds pixel, every in-bounds
label reaches `some 0` (the raster index of the pixel `(0, 0)`): the minimum
label propagates one Chebyshev step per pass, and `w * h` passes dominate
the Chebyshev radius. -/
lemma comp_labels_of_full (w h : ℕ) (mask : ℕ → ℕ → Bool)
    (hw : 0 < w) (hh : 0 < h)
    (hmask : ∀ x y, x < w → y < h → mask x y = true) :
    ∀ x y, x < w → y < h → comp_labels w h mask x y = some 0 := by
  have hstep_eq : ∀ (lbl : ℕ → ℕ → Option ℕ) x y,
      (x < w ∧ y < h ∧ mask x y = true) →
      lbl_step w h mask lbl x y = (nbhd_vals lbl x y).foldl opt_min none := by
    intro lbl x y hg
    unfold lbl_step
    rw [if_pos hg]
  have key : ∀ k x y, x < w → y < h → max x y ≤ k →
      (lbl_step w h mask)^[k] (lbl_init w h mask) x y = some 0 := by
    intro k
    induction k with
    | zero =>
      intro x y hx hy hmax
      have hx0 : x = 0 := by omega
      have hy0 : y = 0 := by omega
      subst hx0; subst hy0
      rw [Function.iterate_zero_apply]
      unfold lbl_init
      rw [if_pos ⟨hw, hh, hmask 0 0 hw hh⟩]
      simp
    | succ k ih =>
      intro x y hx hy hmax
      rw [Function.iterate_succ_apply',
        hstep_eq _ x y ⟨hx, hy, hmask x y hx hy⟩]
      have hnb : (lbl_step w h mask)^[k] (lbl_init w h mask)
          (x - 1) (y - 1) = some 0 :=
        ih (x - 1) (y - 1) (by omega) (by omega) (by omega)
      apply foldl_opt_min_zero_mem
      unfold nbhd_vals
      rw [hnb]
      exact List.mem_cons_self _ _
  intro x y hx hy
  have hwle : w ≤ w * h := Nat.le_mul_of_pos_right w hh
  have hhle : h ≤ w * h := Nat.le_mul_of_pos_left h hw
  exact key (w * h) x y hx hy (by omega)

lemma fold_min_le_start (f : ℕ × ℕ → ℕ) (L : List (ℕ × ℕ)) (a : ℕ) :
    L.foldl (fun acc q => min acc (f q)) a ≤ a := by
  induction L generalizing a with
  | nil => exact le_refl a
  | cons b t ih =>
    exact le_trans (ih (min a (f b))) (min_le_left _ _)

lemma fold_min_le_mem (f : ℕ × ℕ → ℕ) (L : List (ℕ × ℕ)) (a : ℕ)
    (q : ℕ × ℕ) (hq : q ∈ L) :
    L.foldl (fun acc q => min acc (f q)) a ≤ f q := by
  induction L generalizing a with
  | nil => exact absurd hq (List.not_mem_nil q)
  | cons b t ih =>
    rcases List.mem_cons.mp hq with hb | ht
    · subst hb
      exact le_trans (fold_min_le_start f t _) (min_le_right _ _)
    · exact ih (min a (f b)) ht

lemma fold_max_ge_start (f : ℕ × ℕ → ℕ) (L : List (ℕ × ℕ)) (a : ℕ) :
    a ≤ L.foldl (fun acc q => max acc (f q)) a := by
  induction L generalizing a with
  | nil => exact le_refl a
  | cons b t ih =>
    exact le_trans (le_max_left _ _) (ih (max a (f b)))

lemma fold_max_ge_mem (f : ℕ × ℕ → ℕ) (L : List (ℕ × ℕ)) (a : ℕ)
    (q : ℕ × ℕ) (hq : q ∈ L) :
    f q ≤ L.foldl (fun acc q => max acc (f q)) a := by
  induction L generalizing a with
  | nil => exact absurd hq (List.not_mem_nil q)
  | cons b t ih =>
    rcases List.mem_cons.mp hq with hb | ht
    · subst hb
      exact le_trans (le_max_right _ _) (fold_max_ge_start f t _)
    · exact ih (max a (f b)) ht

lemma fold_max_mem (f : ℕ × ℕ → ℕ) (L : List (ℕ × ℕ)) (a : ℕ) :
    L.foldl (fun acc q => max acc (f q)) a = a ∨
      ∃ q ∈ L, L.foldl (fun acc q => max acc (f q)) a = f q := by
  induction L generalizing a with
  | nil => exact Or.inl rfl
  | cons b t ih =>
    rcases ih (max a (f b)) with h | ⟨q, hq, hfq⟩
    · rcases max_choice a (f b) with hm | hm
      · exact Or.inl (by rw [List.foldl_cons, h, hm])
      · exact Or.inr ⟨b, List.mem_cons_self _ _, by rw [List.foldl_cons, h, hm]⟩
    · exact Or.inr ⟨q, List.mem_cons_of_mem b hq, hfq⟩

lemma mem_raster (w h x y : ℕ) :
    (x, y) ∈ raster w h ↔ x < w ∧ y < h := by
  unfold raster
  simp only [List.mem_flatMap, List.mem_map, List.mem_range]
  constructor
  · rintro ⟨y', hy', x', hx', heq⟩
    obtain ⟨h1, h2⟩ := Prod.mk.injEq x' y' x y ▸ heq
    exact ⟨h1 ▸ hx', h2 ▸ hy'⟩
  · rintro ⟨hx, hy⟩
    exact ⟨y, hy, x, hx, rfl⟩

lemma dedup_eq_singleton (L : List ℕ) (a : ℕ) (hne : L ≠ [])
    (hall : ∀ b ∈ L, b = a) : L.dedup = [a] := by
  induction L with
  | nil => exact absurd rfl hne
  | cons b t ih =>
    have hb : b = a := hall b (List.mem_cons_self _ _)
    subst hb
    cases t with
    | nil => rfl
    | cons c t' =>
      have hc : c = b := hall c (List.mem_cons_of_mem _ (List.mem_cons_self _ _))
      have hmem : b ∈ c :: t' := hc ▸ List.mem_cons_self _ _
      rw [List.dedup_cons_of_mem hmem]
      exact ih (List.cons_ne_nil c t')
        (fun d hd => hall d (List.mem_cons_of_mem _ hd))

/-- No in-bounds foreground pixel: no components, no rects. -/
lemma component_rects_of_empty (w h : ℕ) (mask : ℕ → ℕ → Bool)
    (hmask : ∀ x y, x < w → y < h → mask x y = false) :
    component_rects w h mask = [] := by
  simp only [component_rects]
  have hnil : ((raster w h).filterMap fun p =>
      comp_labels w h mask p.1 p.2) = [] :=
    List.filterMap_eq_nil_iff.mpr fun p _ => comp_labels_of_empty w h mask hmask p.1 p.2
  rw [hnil]
  rfl

lemma filterMap_const_some {α : Type} (L : List α) (c : ℕ)
    (f : α → Option ℕ) (hf : ∀ p ∈ L, f p = some c) :
    L.filterMap f = L.map fun _ => c := by
  induction L with
  | nil => rfl
  | cons b t ih =>
    have hb := hf b (List.mem_cons_self _ _)
    simp [List.filterMap_cons, hb,
      ih (fun p hp => hf p (List.mem_cons_of_mem _ hp))]

/-- The bounding box of the full raster is the whole image. -/
lemma bbox_rect_raster (w h : ℕ) (hw : 0 < w) (hh : 0 < h) :
    bbox_rect (raster w h) = ⟨0, 0, (w : ℤ), (h : ℤ)⟩ := by
  cases hr : raster w h with
  | nil =>
    have h00 : (0, 0) ∈ raster w h := (mem_raster w h 0 0).mpr ⟨hw, hh⟩
    rw [hr] at h00
    exact absurd h00 (List.not_mem_nil _)
  | cons p rest =>
    have hall : ∀ q ∈ p :: rest, q.1 < w ∧ q.2 < h := by
      intro q hq
      rw [← hr] at hq
      obtain ⟨x, y⟩ := q
      exact (mem_raster w h x y).mp hq
    have h00 : (0, 0) ∈ p :: rest := by
      rw [← hr]; exact (mem_raster w h 0 0).mpr ⟨hw, hh⟩
    have hC : (w - 1, h - 1) ∈ p :: rest := by
      rw [← hr]
      exact (mem_raster w h (w - 1) (h - 1)).mpr ⟨by omega, by omega⟩
    have hx1 : rest.foldl (fun a q => min a q.1) p.1 = 0 := by
      have hle : rest.foldl (fun a q => min a q.1) p.1 ≤ 0 := by
        rcases List.mem_cons.mp h00 with hp0 | h0r
        · have hp1 : p.1 = 0 := congrArg Prod.fst hp0.symm
          exact hp1 ▸ fold_min_le_start (fun q => q.1) rest p.1
        · exact fold_min_le_mem (fun q => q.1) rest p.1 (0, 0) h0r
      omega
    have hy1 : rest.foldl (fun a q => min a q.2) p.2 = 0 := by
      have hle : rest.foldl (fun a q => min a q.2) p.2 ≤ 0 := by
        rcases List.mem_cons.mp h00 with hp0 | h0r
        · have hp2 : p.2 = 0 := congrArg Prod.snd hp0.symm
          exact hp2 ▸ fold_min_le_start (fun q => q.2) rest p.2
        · exact fold_min_le_mem (fun q => q.2) rest p.2 (0, 0) h0r
      omega
    have hx2 : rest.foldl (fun a q => max a q.1) p.1 = w - 1 := by
      have hub : rest.foldl (fun a q => max a q.1) p.1 ≤ w - 1 := by
        rcases fold_max_mem (fun q => q.1) rest p.1 with he | ⟨q, hqr, hfq⟩
        · rw [he]
          have := (hall p (List.mem_cons_self _ _)).1
          omega
        · rw [hfq]
          have := (hall q (List.mem_cons_of_mem _ hqr)).1
          omega
      have hlb : w - 1 ≤ rest.foldl (fun a q => max a q.1) p.1 := by
        rcases List.mem_cons.mp hC with hpC | hCr
        · have hp1 : p.1 = w - 1 := congrArg Prod.fst hpC.symm
          exact hp1 ▸ fold_max_ge_start (fun q => q.1) rest p.1
        · exact fold_max_ge_mem (fun q => q.1) rest p.1 (w - 1, h - 1) hCr
      omega
    have hy2 : rest.foldl (fun a q => max a q.2) p.2 = h - 1 := by
      have hub : rest.foldl (fun a q => max a q.2) p.2 ≤ h - 1 := by
        rcases fold_max_mem (fun q => q.2) rest p.2 with he | ⟨q, hqr, hfq⟩
        · rw [he]
          have := (hall p (List.mem_cons_self _ _)).2
          omega
        · rw [hfq]
          have := (hall q (List.mem_cons_of_mem _ hqr)).2
          omega
      have hlb : h - 1 ≤ rest.foldl (fun a q => max a q.2) p.2 := by
        rcases List.mem_cons.mp hC with hpC | hCr
        · have hp2 : p.2 = h - 1 := congrArg Prod.snd hpC.symm
          exact hp2 ▸ fold_max_ge_start (fun q => q.2) rest p.2
        · exact fold_max_ge_mem (fun q => q.2) rest p.2 (w - 1, h - 1) hCr
      omega
    simp only [bbox_rect]
    rw [hx1, hy1, hx2, hy2,
      show w - 1 + 1 - 0 = w from by omega,
      show h - 1 + 1 - 0 = h from by omega]
    simp

/-- Every in-bounds pixel foreground: exactly one component, whose bounding
box is the whole image. -/
lemma component_rects_of_full (w h : ℕ) (mask : ℕ → ℕ → Bool)
    (hw : 0 < w) (hh : 0 < h)
    (hmask : ∀ x y, x < w → y < h → mask x y = true) :
    component_rects w h mask = [⟨0, 0, (w : ℤ), (h : ℤ)⟩] := by
  have hlbl : ∀ p ∈ raster w h,
      comp_labels w h mask p.1 p.2 = some 0 := by
    rintro ⟨x, y⟩ hp
    rw [mem_raster] at hp
    exact comp_labels_of_full w h mask hw hh hmask x y hp.1 hp.2
  simp only [component_rects]
  have hfm : ((raster w h).filterMap fun p =>
      comp_labels w h mask p.1 p.2) = (raster w h).map fun _ => 0 :=
    filterMap_const_some (raster w h) 0 _ hlbl
  rw [hfm]
  have hne : ((raster w h).map fun _ => (0 : ℕ)) ≠ [] := by
    intro hcon
    rw [List.map_eq_nil_iff] at hcon
    have h00 : (0, 0) ∈ raster w h := (mem_raster w h 0 0).mpr ⟨hw, hh⟩
    rw [hcon] at h00
    exact absurd h00 (List.not_mem_nil _)
  rw [dedup_eq_singleton _ 0 hne
    (fun b hb => by
      obtain ⟨q, _, hq⟩ := List.mem_map.mp hb
      exact hq.symm)]
  have hfilter : ((raster w h).filter fun p =>
      decide (comp_labels w h mask p.1 p.2 = some 0)) = raster w h :=
    List.filter_eq_self.mpr fun p hp => by rw [hlbl p hp]; exact decide_eq_true rfl
  rw [List.map_cons, List.map_nil, hfilter, bbox_rect_raster w h hw hh]

/-! ## Dilation and blur on constant masks/images -/

/-- Dilation preserves an all-foreground mask on the in-bounds pixels: the
anchored window always contains the pixel itself. -/
lemma dilate_once_full (w h kw kh : ℕ) (hkw : 0 < kw) (hkh : 0 < kh)
    (mask : ℕ → ℕ → Bool)
    (hmask : ∀ x y, x < w → y < h → mask x y = true) :
    ∀ x y, x < w → y < h → dilate_once w h kw kh mask x y = true := by
  intro x y hx hy
  unfold dilate_once
  simp only [Bool.and_eq_true, decide_eq_true_eq]
  refine ⟨⟨hx, hy⟩, ?_⟩
  rw [List.any_eq_true]
  refine ⟨kh / 2, List.mem_range.mpr (Nat.div_lt_self hkh one_lt_two), ?_⟩
  rw [List.any_eq_true]
  refine ⟨kw / 2, List.mem_range.mpr (Nat.div_lt_self hkw one_lt_two), ?_⟩
  simp only [Bool.and_eq_true, decide_eq_true_eq]
  have hxeq : ((x : ℤ) + ((kw / 2 : ℕ) : ℤ) - ((kw / 2 : ℕ) : ℤ)).toNat = x :=
    by omega
  have hyeq : ((y : ℤ) + ((kh / 2 : ℕ) : ℤ) - ((kh / 2 : ℕ) : ℤ)).toNat = y :=
    by omega
  refine ⟨⟨⟨⟨by omega, by omega⟩, by omega⟩, by omega⟩, ?_⟩
  rw [hxeq, hyeq]
  exact hmask x y hx hy

/-- Dilation of a mask with no in-bounds foreground pixel stays empty: all
window taps are bounds-checked, so every read is of an in-bounds background
pixel. -/
lemma dilate_once_empty (w h kw kh : ℕ) (mask : ℕ → ℕ → Bool)
    (hmask : ∀ x y, x < w → y < h → mask x y = false) :
    ∀ x y, x < w → y < h → dilate_once w h kw kh mask x y = false := by
  intro x y hx hy
  unfold dilate_once
  rw [Bool.and_eq_false_iff]
  right
  rw [List.any_eq_false]
  intro j _
  rw [Bool.not_eq_true, List.any_eq_false]
  intro i _
  rw [Bool.not_eq_true]
  by_cases hin : (0 ≤ (x : ℤ) + (i : ℤ) - (kw / 2 : ℕ) ∧
      (x : ℤ) + (i : ℤ) - (kw / 2 : ℕ) < (w : ℤ)) ∧
      0 ≤ (y : ℤ) + (j : ℤ) - (kh / 2 : ℕ) ∧
      (y : ℤ) + (j : ℤ) - (kh / 2 : ℕ) < (h : ℤ)
  · rw [hmask ((x : ℤ) + (i : ℤ) - ((kw / 2 : ℕ) : ℤ)).toNat
      ((y : ℤ) + (j : ℤ) - ((kh / 2 : ℕ) : ℤ)).toNat (by omega) (by omega),
      Bool.and_false]
  · simp only [Bool.and_eq_false_iff, decide_eq_false_iff_not]
    rcases not_and_or.mp hin with hx' | hy'
    · rcases not_and_or.mp hx' with h1 | h2
      · exact Or.inl (Or.inl (Or.inl (Or.inl h1)))
      · exact Or.inl (Or.inl (Or.inl (Or.inr h2)))
    · rcases not_and_or.mp hy' with h1 | h2
      · exact Or.inl (Or.inl (Or.inr h1))
      · exact Or.inl (Or.inr h2)

lemma dilate_iter_full (w h kw kh : ℕ) (hkw : 0 < kw) (hkh : 0 < kh)
    (mask : ℕ → ℕ → Bool)
    (hmask : ∀ x y, x < w → y < h → mask x y = true) :
    ∀ n x y, x < w → y < h →
      (dilate_once w h kw kh)^[n] mask x y = true := by
  intro n
  induction n with
  | zero => exact hmask
  | succ n ih =>
    intro x y hx hy
    rw [Function.iterate_succ_apply']
    exact dilate_once_full w h kw kh hkw hkh _ ih x y hx hy

lemma dilate_iter_empty (w h kw kh : ℕ) (mask : ℕ → ℕ → Bool)
    (hmask : ∀ x y, x < w → y < h → mask x y = false) :
    ∀ n x y, x < w → y < h →
      (dilate_once w h kw kh)^[n] mask x y = false := by
  intro n
  induction n with
  | zero => exact hmask
  | succ n ih =>
    intro x y hx hy
    rw [Function.iterate_succ_apply']
    exact dilate_once_empty w h kw kh _ ih x y hx hy

/-- Blurring a constant image leaves every pixel unchanged: the binomial
kernel has total weight 256 and `(256·v + 128) / 256 = v`. -/
lemma gaussian_blur5_uniform_pix (w h v x y : ℕ) :
    (gaussian_blur5 (uniform w h v)).pix x y = v := by
  show (((List.range 5).flatMap fun j => (List.range 5).map fun i =>
      gk.getD i 0 * gk.getD j 0 * v).sum + 128) / 256 = v
  rw [show List.range 5 = [0, 1, 2, 3, 4] from rfl]
  simp only [List.flatMap_cons, List.flatMap_nil, List.map_cons, List.map_nil,
    List.append_nil, List.sum_append, List.sum_cons, List.sum_nil]
  simp only [show gk.getD 0 0 = 1 from rfl, show gk.getD 1 0 = 4 from rfl,
    show gk.getD 2 0 = 6 from rfl, show gk.getD 3 0 = 4 from rfl,
    show gk.getD 4 0 = 1 from rfl]
  omega

/-! ## Detection on uniform images -/

/-- On a uniform image with `60 < v ≤ 240` both masks are empty, so the
adapter detects nothing. -/
lemma detect_regions_uniform_mid (w h v : ℕ) (h60 : 60 < v)
    (h240 : v ≤ 240) : detect_regions (uniform w h v) = [] := by
  have hdirect : ∀ x y, x < (uniform w h v).w → y < (uniform w h v).h →
      th_fixed_fg ((gaussian_blur5 (uniform w h v)).pix x y) = false := by
    intro x y _ _
    rw [gaussian_blur5_uniform_pix]
    exact decide_eq_false (by omega)
  have hinv : ∀ x y, x < (uniform w h v).w → y < (uniform w h v).h →
      th_fixed_inv_fg ((gaussian_blur5 (uniform w h v)).pix x y) = false := by
    intro x y _ _
    rw [gaussian_blur5_uniform_pix]
    unfold th_fixed_inv_fg
    rw [decide_eq_true h60]
    rfl
  show sort_regions (adapter_final_rects
    (component_rects (uniform w h v).w (uniform w h v).h
        (fun x y => th_fixed_fg ((gaussian_blur5 (uniform w h v)).pix x y)) ++
      component_rects (uniform w h v).w (uniform w h v).h
        (fun x y => th_fixed_inv_fg
          ((gaussian_blur5 (uniform w h v)).pix x y)))) = []
  rw [component_rects_of_empty _ _ _ hdirect,
    component_rects_of_empty _ _ _ hinv]
  rw [show adapter_final_rects ([] ++ []) = [] from rfl]
  exact List.perm_nil.mp (List.mergeSort_perm [] region_le)

/-- On a uniform white 100×100 image the direct mask is all-foreground, so
the adapter returns the single full-image rect — not zero regions. -/
lemma detect_regions_uniform_white :
    detect_regions (uniform 100 100 255) = [⟨0, 0, 100, 100⟩] := by
  have hdirect : ∀ x y, x < (uniform 100 100 255).w →
      y < (uniform 100 100 255).h →
      th_fixed_fg ((gaussian_blur5 (uniform 100 100 255)).pix x y) = true := by
    intro x y _ _
    rw [gaussian_blur5_uniform_pix]
    rfl
  have hinv : ∀ x y, x < (uniform 100 100 255).w →
      y < (uniform 100 100 255).h →
      th_fixed_inv_fg ((gaussian_blur5 (uniform 100 100 255)).pix x y)
        = false := by
    intro x y _ _
    rw [gaussian_blur5_uniform_pix]
    rfl
  show sort_regions (adapter_final_rects
    (component_rects (uniform 100 100 255).w (uniform 100 100 255).h
        (fun x y => th_fixed_fg ((gaussian_blur5 (uniform 100 100 255)).pix x y)) ++
      component_rects (uniform 100 100 255).w (uniform 100 100 255).h
        (fun x y => th_fixed_inv_fg
          ((gaussian_blur5 (uniform 100 100 255)).pix x y)))) = _
  rw [component_rects_of_full _ _ _ (by decide) (by decide) hdirect,
    component_rects_of_empty _ _ _ hinv]
  have hfr : adapter_final_rects
      ([⟨0, 0, ((uniform 100 100 255).w : ℤ), ((uniform 100 100 255).h : ℤ)⟩]
        ++ []) = [⟨0, 0, 100, 100⟩] := by decide
  rw [hfr]
  exact List.perm_singleton.mp (List.mergeSort_perm _ region_le)

/-! ## The trial extraction on constant masks -/

/-- One `contours_and_overlay` setting on an all-foreground mask yields the
single full-image rect, whenever the size filter keeps it. -/
lemma contours_setting_full (w h kw kh iters : ℕ) (hw : 0 < w) (hh : 0 < h)
    (hkw : 0 < kw) (hkh : 0 < kh) (bin : ℕ → ℕ → Bool)
    (hbin : ∀ x y, x < w → y < h → bin x y = true) (name : List Char)
    (hkeep : size_filter_keep name ⟨0, 0, (w : ℤ), (h : ℤ)⟩ = true) :
    (component_rects w h
        (if iters > 0 then (dilate_once w h kw kh)^[iters] bin else bin)).filter
      (size_filter_keep name) = [⟨0, 0, (w : ℤ), (h : ℤ)⟩] := by
  have hmask : ∀ x y, x < w → y < h →
      (if iters > 0 then (dilate_once w h kw kh)^[iters] bin else bin) x y
        = true := by
    intro x y hx hy
    split
    · exact dilate_iter_full w h kw kh hkw hkh bin hbin iters x y hx hy
    · exact hbin x y hx hy
  rw [component_rects_of_full w h _ hw hh hmask]
  simp [List.filter_cons, hkeep]

/-- One `contours_and_overlay` setting on an empty mask yields nothing. -/
lemma contours_setting_empty (w h kw kh iters : ℕ) (bin : ℕ → ℕ → Bool)
    (hbin : ∀ x y, x < w → y < h → bin x y = false) (name : List Char) :
    (component_rects w h
        (if iters > 0 then (dilate_once w h kw kh)^[iters] bin else bin)).filter
      (size_filter_keep name) = [] := by
  have hmask : ∀ x y, x < w → y < h →
      (if iters > 0 then (dilate_once w h kw kh)^[iters] bin else bin) x y
        = false := by
    intro x y hx hy
    split
    · exact dilate_iter_empty w h kw kh bin hbin iters x y hx hy
    · exact hbin x y hx hy
  rw [component_rects_of_empty w h _ hmask]
  rfl

/-- All five `kernel_trials` settings on an all-foreground mask. -/
lemma contours_and_overlay_full (w h : ℕ) (hw : 0 < w) (hh : 0 < h)
    (bin : ℕ → ℕ → Bool) (hbin : ∀ x y, x < w → y < h → bin x y = true)
    (name : List Char)
    (hkeep : size_filter_keep name ⟨0, 0, (w : ℤ), (h : ℤ)⟩ = true) :
    contours_and_overlay w h bin name kernel_trials
      = List.replicate 5 [⟨0, 0, (w : ℤ), (h : ℤ)⟩] := by
  unfold contours_and_overlay kernel_trials
  simp only [List.map_cons, List.map_nil]
  rw [contours_setting_full w h 1 1 0 hw hh one_pos one_pos bin hbin name hkeep,
    contours_setting_full w h 3 5 1 hw hh (by norm_num) (by norm_num) bin hbin name hkeep,
    contours_setting_full w h 5 10 2 hw hh (by norm_num) (by norm_num) bin hbin name hkeep,
    contours_setting_full w h 5 15 4 hw hh (by norm_num) (by norm_num) bin hbin name hkeep,
    contours_setting_full w h 7 7 2 hw hh (by norm_num) (by norm_num) bin hbin name hkeep]
  rfl

/-- All five `kernel_trials` settings on an empty mask. -/
lemma contours_and_overlay_empty (w h : ℕ) (bin : ℕ → ℕ → Bool)
    (hbin : ∀ x y, x < w → y < h → bin x y = false) (name : List Char) :
    contours_and_overlay w h bin name kernel_trials
      = List.replicate 5 [] := by
  unfold contours_and_overlay kernel_trials
  simp only [List.map_cons, List.map_nil]
  rw [contours_setting_empty w h 1 1 0 bin hbin name,
    contours_setting_empty w h 3 5 1 bin hbin name,
    contours_setting_empty w h 5 10 2 bin hbin name,
    contours_setting_empty w h 5 15 4 bin hbin name,
    contours_setting_empty w h 7 7 2 bin hbin name]
  rfl

/-- Evaluating `preprocess_for_ocr` on uniform white 100×100: each of the five direct
trials finds the one full-image rect, the inverse trials find nothing, all
five (equal-area) copies survive the final subsumption loop — and the
function still hands `none` back to the caller. -/
lemma preprocess_for_ocr_uniform_white :
    preprocess_for_ocr (uniform 100 100 255) =
      ⟨[⟨0, 0, 100, 100⟩, ⟨0, 0, 100, 100⟩, ⟨0, 0, 100, 100⟩,
        ⟨0, 0, 100, 100⟩, ⟨0, 0, 100, 100⟩], none⟩ := by
  have hdirect : ∀ x y, x < (uniform 100 100 255).w →
      y < (uniform 100 100 255).h →
      th_fixed_fg ((uniform 100 100 255).pix x y) = true :=
    fun _ _ _ _ => rfl
  have hinv : ∀ x y, x < (uniform 100 100 255).w →
      y < (uniform 100 100 255).h →
      th_fixed_inv_fg ((uniform 100 100 255).pix x y) = false :=
    fun _ _ _ _ => rfl
  show (⟨final_rects_of
    ((contours_and_overlay (uniform 100 100 255).w (uniform 100 100 255).h
        (fun x y => th_fixed_fg ((uniform 100 100 255).pix x y))
        direct_mask_name kernel_trials ++
      contours_and_overlay (uniform 100 100 255).w (uniform 100 100 255).h
        (fun x y => th_fixed_inv_fg ((uniform 100 100 255).pix x y))
        inverse_mask_name kernel_trials).flatten), none⟩ : PreprocOut) = _
  rw [contours_and_overlay_full _ _ (by decide) (by decide) _ hdirect
      direct_mask_name (by decide),
    contours_and_overlay_empty _ _ _ hinv inverse_mask_name]
  decide

/-! ## Claim C6 -/

/-- C6 counterexample.  The claim "every uniform image gives zero
regions" fails: on the uniform white (intensity 255) 100×100 image the
direct mask is entirely foreground, its full-image bounding box passes every
size filter, survives suppression, and is returned. -/
theorem C6_blank_counterexample :
    detect_regions (uniform 100 100 255) = [⟨0, 0, 100, 100⟩] ∧
    detect_regions (uniform 100 100 255) ≠ [] := by
  refine ⟨detect_regions_uniform_white, ?_⟩
  rw [detect_regions_uniform_white]
  exact List.cons_ne_nil _ _

/-- C6 (corrected).  For every uniform image whose intensity `v`
satisfies `60 < v ≤ 240` — so that neither threshold fires — detection
returns zero regions.  (For `v ≤ 60` or `v > 240` a small enough image
yields its full-image rect instead, see the counterexample.) -/
theorem C6_blank_amended :
    ∀ (w h v : ℕ), 60 < v → v ≤ 240 →
      detect_regions (uniform w h v) = [] :=
  detect_regions_uniform_mid

/-- Witness for the amended C6 at a concrete uniform mid-gray image. -/
theorem C6_blank_amended_witness :
    (60 : ℕ) < 100 ∧ (100 : ℕ) ≤ 240 ∧
      detect_regions (uniform 5 7 100) = [] :=
  ⟨by decide, by decide, C6_blank_amended 5 7 100 (by decide) (by decide)⟩

/-! ## Claim C1 -/

/-- C1 (code bug).  `preprocess_for_ocr` is not a function from a page
image to the detected regions: it computes and logs the final rectangle pool
but ends without a `return`, so every caller receives `None`.  On the
uniform white 100×100 image the computed pool is non-empty (five copies of
the full-image rect, one per direct-mask trial) and is still discarded. -/
theorem C1_preprocess_no_return :
    (∀ img : GrayImage, (preprocess_for_ocr img).ret = none) ∧
    preprocess_for_ocr (uniform 100 100 255) =
      ⟨[⟨0, 0, 100, 100⟩, ⟨0, 0, 100, 100⟩, ⟨0, 0, 100, 100⟩,
        ⟨0, 0, 100, 100⟩, ⟨0, 0, 100, 100⟩], none⟩ ∧
    ([⟨0, 0, 100, 100⟩, ⟨0, 0, 100, 100⟩, ⟨0, 0, 100, 100⟩,
      ⟨0, 0, 100, 100⟩, ⟨0, 0, 100, 100⟩] : List TextRegion) ≠ [] :=
  ⟨fun _ => rfl, preprocess_for_ocr_uniform_white, List.cons_ne_nil _ _⟩

/-! ## Claim C7 -/

/-- C7 counterexample.  On a zero-width image and on a null image the
detection entry points do fail, but with `cv2`'s assertion error and
`AttributeError` respectively — never with the `InvalidInputError` the claim
names (no such class exists anywhere in the repository). -/
theorem C7_invalid_input_counterexample :
    detect_regions_call (some ⟨0, 5, fun _ _ => 0⟩)
        = .error .cv2AssertError ∧
    detect_regions_call (some ⟨0, 5, fun _ _ => 0⟩)
        ≠ .error .invalidInputError ∧
    detect_regions_call none = .error .attributeError ∧
    detect_regions_call none ≠ .error .invalidInputError ∧
    preprocess_for_ocr_call (some ⟨0, 5, fun _ _ => 0⟩)
        = .error .cv2AssertError ∧
    preprocess_for_ocr_call none = .error .attributeError := by
  refine ⟨rfl, ?_, rfl, ?_, rfl, rfl⟩
  · intro hcon
    rw [show detect_regions_call (some ⟨0, 5, fun _ _ => 0⟩)
        = .error .cv2AssertError from rfl] at hcon
    injection hcon with h
    exact PyError.noConfusion h
  · intro hcon
    injection hcon with h
    exact PyError.noConfusion h

/-- C7 (corrected).  A null image fails with `AttributeError`, a
zero-width/height image fails with `cv2`'s assertion error, and no outcome
of either entry point is ever an `InvalidInputError`. -/
theorem C7_invalid_input_amended :
    detect_regions_call none = .error .attributeError ∧
    preprocess_for_ocr_call none = .error .attributeError ∧
    (∀ im : GrayImage, im.w = 0 ∨ im.h = 0 →
      detect_regions_call (some im) = .error .cv2AssertError ∧
      preprocess_for_ocr_call (some im) = .error .cv2AssertError) ∧
    (∀ inp, detect_regions_call inp ≠ .error .invalidInputError) ∧
    (∀ inp, preprocess_for_ocr_call inp ≠ .error .invalidInputError) := by
  refine ⟨rfl, rfl, ?_, ?_, ?_⟩
  · intro im him
    constructor
    · simp only [detect_regions_call]
      rw [if_pos him]
    · simp only [preprocess_for_ocr_call]
      rw [if_pos him]
  · intro inp hcon
    cases inp with
    | none =>
      injection hcon with hcon2
      exact PyError.noConfusion hcon2
    | some im =>
      simp only [detect_regions_call] at hcon
      split at hcon
      · injection hcon with hcon2
        exact PyError.noConfusion hcon2
      · simp at hcon
  · intro inp hcon
    cases inp with
    | none =>
      injection hcon with hcon2
      exact PyError.noConfusion hcon2
    | some im =>
      simp only [preprocess_for_ocr_call] at hcon
      split at hcon
      · injection hcon with hcon2
        exact PyError.noConfusion hcon2
      · simp at hcon

/-- Witness for the amended C7 at a concrete zero-width image. -/
theorem C7_invalid_input_amended_witness :
    ((⟨0, 5, fun _ _ => 0⟩ : GrayImage).w = 0 ∨
      (⟨0, 5, fun _ _ => 0⟩ : GrayImage).h = 0) ∧
    detect_regions_call (some ⟨0, 5, fun _ _ => 0⟩)
      = .error .cv2AssertError ∧
    preprocess_for_ocr_call (some ⟨0, 5, fun _ _ => 0⟩)
      = .error .cv2AssertError :=
  ⟨Or.inl rfl,
    (C7_invalid_input_amended.2.2.1 ⟨0, 5, fun _ _ => 0⟩ (Or.inl rfl)).1,
    (C7_invalid_input_amended.2.2.1 ⟨0, 5, fun _ _ => 0⟩ (Or.inl rfl)).2⟩

/-! ## Claim C8 -/

/-- C8 counterexample.  At pixel value 60 the inverse mask is
foreground (`THRESH_BINARY_INV` keeps values not exceeding the threshold),
but the claim's `p < 60` does not hold. -/
theorem C8_threshold_counterexample :
    ¬(th_fixed_inv_fg 60 = true ↔ (60 : ℕ) < 60) := by decide

/-- C8 (corrected).  With the default threshold 240, the direct mask
marks `p` foreground iff `p > 240` (as claimed), and the inverse mask marks
`p` foreground iff `p ≤ 60` (equivalently `p < 61`), not `p < 60`. -/
theorem C8_threshold_amended :
    ∀ p : ℕ, (th_fixed_fg p = true ↔ 240 < p) ∧
      (th_fixed_inv_fg p = true ↔ p ≤ 60) := by
  intro p
  unfold th_fixed_fg th_fixed_inv_fg
  constructor
  · rw [decide_eq_true_eq]
  · rw [Bool.not_eq_true', decide_eq_false_iff_not]
    exact not_lt

/-! ## Claim C9 -/

/-- C9 counterexample.  `pad_crop` can throw: for a region lying wholly
to the right of the image (`left = 500` in a 100-wide image), the clamped
box is inverted (`x2 = 100 < 500 = x1`) and PIL's `crop` raises
`ValueError`, contradicting "never throws" and "x1 ≤ x2". -/
theorem C9_pad_crop_counterexample :
    pad_crop 100 100 ⟨500, 0, 10, 10⟩ ((6 : ℚ) / 100)
      = .error .valueError := by
  have hpad : crop_pad ⟨500, 0, 10, 10⟩ ((6 : ℚ) / 100) = 0 := by
    unfold crop_pad py_int
    rw [if_pos (by norm_num)]
    norm_num
  simp only [pad_crop]
  rw [hpad]
  rw [if_pos (by decide)]

/-- C9 (corrected).  `pad_crop` expands by
`pad = int(min(width, height) · padFrac)` (truncated toward zero) and clamps
`x1, y1` below by 0 and `x2, y2` above by the image size; whenever the
clamped box is non-inverted — in particular whenever the padded rectangle
meets `[0, W] × [0, H]` — it returns that sub-image box, which satisfies
`0 ≤ x1 ≤ x2 ≤ W` and `0 ≤ y1 ≤ y2 ≤ H`.  When the padded rectangle lies
wholly outside those bounds, PIL's `crop` raises `ValueError` instead (see
the counterexample), so the unconditional "never throws" fails. -/
theorem C9_pad_crop_amended :
    ∀ (W H : ℤ) (r : TextRegion) (pad_frac : ℚ),
      max 0 (r.left - crop_pad r pad_frac)
          ≤ min W (r.left + r.width + crop_pad r pad_frac) →
      max 0 (r.top - crop_pad r pad_frac)
          ≤ min H (r.top + r.height + crop_pad r pad_frac) →
      ∃ b : CropBox, pad_crop W H r pad_frac = .ok b ∧
        b.x1 = max 0 (r.left - crop_pad r pad_frac) ∧
        b.y1 = max 0 (r.top - crop_pad r pad_frac) ∧
        b.x2 = min W (r.left + r.width + crop_pad r pad_frac) ∧
        b.y2 = min H (r.top + r.height + crop_pad r pad_frac) ∧
        0 ≤ b.x1 ∧ b.x1 ≤ b.x2 ∧ b.x2 ≤ W ∧
        0 ≤ b.y1 ∧ b.y1 ≤ b.y2 ∧ b.y2 ≤ H := by
  intro W H r pad_frac hx hy
  refine ⟨⟨max 0 (r.left - crop_pad r pad_frac),
    max 0 (r.top - crop_pad r pad_frac),
    min W (r.left + r.width + crop_pad r pad_frac),
    min H (r.top + r.height + crop_pad r pad_frac)⟩, ?_, rfl, rfl, rfl, rfl,
    le_max_left 0 _, hx, min_le_left W _, le_max_left 0 _, hy,
    min_le_left H _⟩
  simp only [pad_crop]
  rw [if_neg]
  push_neg
  exact ⟨hx, hy⟩

/-- Witness for the amended C9: a 50×40 region at (10, 10) inside a 100×100
image, default pad fraction; the pad is 2 and the crop box is returned. -/
theorem C9_pad_crop_amended_witness :
    (max 0 ((10 : ℤ) - crop_pad ⟨10, 10, 50, 40⟩ ((6 : ℚ) / 100))
        ≤ min 100 ((10 : ℤ) + 50 + crop_pad ⟨10, 10, 50, 40⟩ ((6 : ℚ) / 100))) ∧
    (max 0 ((10 : ℤ) - crop_pad ⟨10, 10, 50, 40⟩ ((6 : ℚ) / 100))
        ≤ min 100 ((10 : ℤ) + 40 + crop_pad ⟨10, 10, 50, 40⟩ ((6 : ℚ) / 100))) ∧
    ∃ b : CropBox,
      pad_crop 100 100 ⟨10, 10, 50, 40⟩ ((6 : ℚ) / 100) = .ok b ∧
        0 ≤ b.x1 ∧ b.x1 ≤ b.x2 ∧ b.x2 ≤ 100 ∧
        0 ≤ b.y1 ∧ b.y1 ≤ b.y2 ∧ b.y2 ≤ 100 := by
  have hpad : crop_pad ⟨10, 10, 50, 40⟩ ((6 : ℚ) / 100) = 2 := by
    unfold crop_pad py_int
    rw [if_pos (by norm_num)]
    norm_num
  have hx : max 0 ((10 : ℤ) - crop_pad ⟨10, 10, 50, 40⟩ ((6 : ℚ) / 100))
      ≤ min 100 ((10 : ℤ) + 50 + crop_pad ⟨10, 10, 50, 40⟩ ((6 : ℚ) / 100)) := by
    rw [hpad]; decide
  have hy : max 0 ((10 : ℤ) - crop_pad ⟨10, 10, 50, 40⟩ ((6 : ℚ) / 100))
      ≤ min 100 ((10 : ℤ) + 40 + crop_pad ⟨10, 10, 50, 40⟩ ((6 : ℚ) / 100)) := by
    rw [hpad]; decide
  obtain ⟨b, hb, _, _, _, _, h1, h2, h3, h4, h5, h6⟩ :=
    C9_pad_crop_amended 100 100 ⟨10, 10, 50, 40⟩ ((6 : ℚ) / 100) hx hy
  exact ⟨hx, hy, b, hb, h1, h2, h3, h4, h5, h6⟩

-- Sanity checks on concrete data (kernel-evaluable).
example : inter_area ⟨0, 0, 10, 10⟩ ⟨5, 5, 10, 10⟩ = 25 := by decide
example : inter_area ⟨0, 0, 10, 10⟩ ⟨20, 0, 10, 10⟩ = 0 := by decide
example : size_filter_keep inverse_mask_name ⟨0, 0, 200, 50⟩ = false := by decide
example : size_filter_keep direct_mask_name ⟨0, 0, 200, 50⟩ = true := by decide
example : adapter_final_rects [⟨0, 0, 100, 100⟩] = [⟨0, 0, 100, 100⟩] := by decide
